import Mathlib

/-!
Verification of the log/event monitoring core of the wazuh-qa test harness.

The development shallowly embeds the Python sources:
  deps/wazuh_testing/wazuh_testing/modules/eps/event_monitor.py
  deps/wazuh_testing/wazuh_testing/remote.py
Strings are modelled as `List Char`, byte strings as `List Nat`, and the
Python `re` module is modelled by a small regular-expression engine with a
Brzozowski-derivative matcher whose correctness against an inductive
language semantics is proved below.
-/

set_option maxHeartbeats 1000000

namespace WazuhQA

/-! ## Python string primitives -/

/-- The ASCII whitespace characters recognized by Python's `str.split()`
and by the regex class `\s` (restricted to the ASCII range). -/
def pyIsSpace (c : Char) : Bool :=
  c = ' ' || c = '\t' || c = '\n' || c = '\r' || c = '\x0b' || c = '\x0c'

/-- Prepend the character `c` to the first word of `ps`. -/
def pySplitExtend (c : Char) : List (List Char) → List (List Char)
  | [] => [[c]]
  | w :: rest => (c :: w) :: rest

/-- Helper for `pySplit`: attach the non-whitespace character `c` to the
words `ps` of the remainder `r`, starting a new word when `r` opens with
whitespace (or is empty) and extending the first word otherwise. -/
def pySplitGlue (c : Char) (r : List Char) (ps : List (List Char)) :
    List (List Char) :=
  match r with
  | [] => [[c]]
  | d :: _ => if pyIsSpace d then [c] :: ps else pySplitExtend c ps

/-- Python `str.split()` with no argument: splits on runs of whitespace,
discarding leading and trailing whitespace; never returns empty words. -/
def pySplit : List Char → List (List Char)
  | [] => []
  | c :: r =>
    if pyIsSpace c then pySplit r else pySplitGlue c r (pySplit r)

/-- Python `sep.join(words)`. -/
def joinSep (sep : List Char) : List (List Char) → List Char
  | [] => []
  | [w] => w
  | w :: ws => w ++ sep ++ joinSep sep ws

/-- The separator `r'\s+'` as a character list. -/
def sepToken : List Char := ['\\', 's', '+']

/-- Models line 23 of event_monitor.py: `pattern = r'\s+'.join(pattern.split())`. -/
def normalize_pattern (p : List Char) : List Char :=
  joinSep sepToken (pySplit p)

/-- Python `'{}'.format(x)` applied to the prefix argument, which may be the
Python value `None`: `str.format` renders `None` as the four characters
`None`. -/
def pyFormatPre : Option (List Char) → List Char
  | none => ['N', 'o', 'n', 'e']
  | some s => s

/-! ## A regular-expression engine modelling the fragment of Python `re`
used by the repository -/

/-- Regular expressions over `Char`; `cls f` matches one character `c` with
`f c = true` (covering literals, `.`, `\s`, `\d`, `\w`). -/
inductive RE : Type
  | zero : RE
  | eps : RE
  | cls (f : Char → Bool) : RE
  | comp (r s : RE) : RE
  | alt (r s : RE) : RE
  | star (r : RE) : RE

/-- Language semantics of `RE`. The `starCons` rule consumes a nonempty
chunk, which yields the same language as the usual rule but admits direct
structural inversion. -/
inductive RE.Matches : RE → List Char → Prop
  | eps : RE.Matches .eps []
  | cls {f : Char → Bool} {c : Char} : f c = true → RE.Matches (.cls f) [c]
  | comp {r s : RE} {t u : List Char} :
      RE.Matches r t → RE.Matches s u → RE.Matches (.comp r s) (t ++ u)
  | altL {r s : RE} {t : List Char} : RE.Matches r t → RE.Matches (.alt r s) t
  | altR {r s : RE} {t : List Char} : RE.Matches s t → RE.Matches (.alt r s) t
  | starNil {r : RE} : RE.Matches (.star r) []
  | starCons {r : RE} {c : Char} {t u : List Char} :
      RE.Matches r (c :: t) → RE.Matches (.star r) u →
      RE.Matches (.star r) (c :: t ++ u)

/-- Nullability: does the expression accept the empty string? -/
def RE.nullable : RE → Bool
  | .zero => false
  | .eps => true
  | .cls _ => false
  | .comp r s => r.nullable && s.nullable
  | .alt r s => r.nullable || s.nullable
  | .star _ => true

/-- Brzozowski derivative with respect to one character. -/
def RE.deriv : RE → Char → RE
  | .zero, _ => .zero
  | .eps, _ => .zero
  | .cls f, c => if f c then .eps else .zero
  | .comp r s, c =>
      if r.nullable then .alt (.comp (r.deriv c) s) (s.deriv c)
      else .comp (r.deriv c) s
  | .alt r s, c => .alt (r.deriv c) (s.deriv c)
  | .star r, c => .comp (r.deriv c) (.star r)

/-- Exact (whole-string) matching by iterated derivatives. -/
def RE.matchesExact : RE → List Char → Bool
  | r, [] => r.nullable
  | r, c :: t => RE.matchesExact (r.deriv c) t

theorem RE.not_matches_zero {t : List Char} : ¬ RE.Matches .zero t := by
  intro h; cases h

theorem RE.matches_eps_iff {t : List Char} : RE.Matches .eps t ↔ t = [] := by
  constructor
  · intro h; cases h; rfl
  · rintro rfl; exact RE.Matches.eps

theorem RE.matches_cls_iff {f : Char → Bool} {t : List Char} :
    RE.Matches (.cls f) t ↔ ∃ c, t = [c] ∧ f c = true := by
  constructor
  · intro h; cases h with
    | cls hf => exact ⟨_, rfl, hf⟩
  · rintro ⟨c, rfl, hf⟩; exact RE.Matches.cls hf

theorem RE.matches_comp_iff {r s : RE} {t : List Char} :
    RE.Matches (.comp r s) t ↔ ∃ u v, t = u ++ v ∧ RE.Matches r u ∧ RE.Matches s v := by
  constructor
  · intro h; cases h with
    | comp hu hv => exact ⟨_, _, rfl, hu, hv⟩
  · rintro ⟨u, v, rfl, hu, hv⟩; exact RE.Matches.comp hu hv

theorem RE.matches_alt_iff {r s : RE} {t : List Char} :
    RE.Matches (.alt r s) t ↔ RE.Matches r t ∨ RE.Matches s t := by
  constructor
  · intro h; cases h with
    | altL h => exact Or.inl h
    | altR h => exact Or.inr h
  · rintro (h | h)
    · exact RE.Matches.altL h
    · exact RE.Matches.altR h

theorem RE.matches_star_cons {r : RE} {c : Char} {t : List Char}
    (h : RE.Matches (.star r) (c :: t)) :
    ∃ u v, t = u ++ v ∧ RE.Matches r (c :: u) ∧ RE.Matches (.star r) v := by
  cases h with
  | starCons hu hv => exact ⟨_, _, rfl, hu, hv⟩

theorem RE.nullable_iff (r : RE) : r.nullable = true ↔ r.Matches [] := by
  induction r with
  | zero =>
    simp only [RE.nullable, Bool.false_eq_true, false_iff]
    exact RE.not_matches_zero
  | eps => simp [RE.nullable, RE.matches_eps_iff]
  | cls f => simp [RE.nullable, RE.matches_cls_iff]
  | comp r s ihr ihs =>
    simp only [RE.nullable, Bool.and_eq_true, ihr, ihs]
    constructor
    · rintro ⟨hr, hs⟩
      have := RE.Matches.comp hr hs
      simpa using this
    · intro h
      rcases RE.matches_comp_iff.1 h with ⟨u, v, huv, hu, hv⟩
      rcases List.append_eq_nil.1 huv.symm with ⟨rfl, rfl⟩
      exact ⟨hu, hv⟩
  | alt r s ihr ihs =>
    simp only [RE.nullable, Bool.or_eq_true, ihr, ihs, RE.matches_alt_iff]
  | star r ih =>
    simp only [RE.nullable, true_iff]
    exact RE.Matches.starNil

theorem RE.deriv_sound {r : RE} {c : Char} {t : List Char}
    (h : RE.Matches (r.deriv c) t) : RE.Matches r (c :: t) := by
  induction r generalizing t with
  | zero => exact absurd h RE.not_matches_zero
  | eps => exact absurd h RE.not_matches_zero
  | cls f =>
    by_cases hf : f c = true
    · simp only [RE.deriv, hf, if_true] at h
      rcases RE.matches_eps_iff.1 h with rfl
      exact RE.Matches.cls hf
    · simp only [RE.deriv, hf, if_false, Bool.false_eq_true] at h
      exact absurd h RE.not_matches_zero
  | comp r s ihr ihs =>
    by_cases hn : r.nullable = true
    · simp only [RE.deriv, hn, if_true] at h
      rcases RE.matches_alt_iff.1 h with h | h
      · rcases RE.matches_comp_iff.1 h with ⟨u, v, rfl, hu, hv⟩
        exact RE.Matches.comp (ihr hu) hv
      · have hr0 : RE.Matches r [] := (RE.nullable_iff r).1 hn
        have := RE.Matches.comp hr0 (ihs h)
        simpa using this
    · simp only [RE.deriv, hn, if_false, Bool.false_eq_true] at h
      rcases RE.matches_comp_iff.1 h with ⟨u, v, rfl, hu, hv⟩
      exact RE.Matches.comp (ihr hu) hv
  | alt r s ihr ihs =>
    simp only [RE.deriv] at h
    rcases RE.matches_alt_iff.1 h with h | h
    · exact RE.Matches.altL (ihr h)
    · exact RE.Matches.altR (ihs h)
  | star r ih =>
    simp only [RE.deriv] at h
    rcases RE.matches_comp_iff.1 h with ⟨u, v, rfl, hu, hv⟩
    exact RE.Matches.starCons (ih hu) hv

theorem RE.deriv_complete {r : RE} {c : Char} {t : List Char}
    (h : RE.Matches r (c :: t)) : RE.Matches (r.deriv c) t := by
  induction r generalizing t with
  | zero => exact absurd h RE.not_matches_zero
  | eps => exact absurd (RE.matches_eps_iff.1 h) (List.cons_ne_nil c t)
  | cls f =>
    rcases RE.matches_cls_iff.1 h with ⟨d, hd, hf⟩
    injection hd with h1 h2
    subst h1
    subst h2
    simp only [RE.deriv, hf, if_true]
    exact RE.Matches.eps
  | comp r s ihr ihs =>
    rcases RE.matches_comp_iff.1 h with ⟨u, v, huv, hu, hv⟩
    cases u with
    | nil =>
      have hn : r.nullable = true := (RE.nullable_iff r).2 hu
      have hvt : v = c :: t := by simpa using huv.symm
      subst hvt
      simp only [RE.deriv, hn, if_true]
      exact RE.Matches.altR (ihs hv)
    | cons c' u' =>
      have hc1 : c' = c := by
        have := huv
        simp only [List.cons_append, List.cons.injEq] at this
        exact this.1.symm
      have hc2 : t = u' ++ v := by
        have := huv
        simp only [List.cons_append, List.cons.injEq] at this
        exact this.2
      subst hc2
      rw [hc1] at hu
      have hstep : RE.Matches (.comp (r.deriv c) s) (u' ++ v) :=
        RE.Matches.comp (ihr hu) hv
      by_cases hn : r.nullable = true
      · simp only [RE.deriv, hn, if_true]
        exact RE.Matches.altL hstep
      · simp only [RE.deriv, hn, if_false, Bool.false_eq_true]
        exact hstep
  | alt r s ihr ihs =>
    simp only [RE.deriv]
    rcases RE.matches_alt_iff.1 h with h | h
    · exact RE.Matches.altL (ihr h)
    · exact RE.Matches.altR (ihs h)
  | star r ih =>
    rcases RE.matches_star_cons h with ⟨u, v, rfl, hu, hv⟩
    simp only [RE.deriv]
    exact RE.Matches.comp (ih hu) hv

theorem RE.matchesExact_iff (t : List Char) (r : RE) :
    r.matchesExact t = true ↔ r.Matches t := by
  induction t generalizing r with
  | nil => simpa [RE.matchesExact] using RE.nullable_iff r
  | cons c t ih =>
    simp only [RE.matchesExact, ih]
    exact ⟨fun h => RE.deriv_sound h, fun h => RE.deriv_complete h⟩

/-! ## Python `re.match`: anchored search at the start of the line -/

/-- All prefixes of `s`, shortest first. -/
def prefixesUpTo (s : List Char) : List (List Char) :=
  (List.range (s.length + 1)).map (fun n => s.take n)

/-- Model of `regex.match(line)`: `some` of a matching prefix of the line
when one exists (match anchored at the first character), `none` otherwise. -/
def reMatch (r : RE) (s : List Char) : Option (List Char) :=
  (prefixesUpTo s).find? (fun t => r.matchesExact t)

/-- Relational statement that a compiled expression matches starting at the
first character of the line: some prefix of the line is in its language. -/
def MatchesAtStart (r : RE) (s : List Char) : Prop :=
  ∃ t, t <+: s ∧ r.Matches t

theorem mem_prefixesUpTo {t s : List Char} : t ∈ prefixesUpTo s ↔ t <+: s := by
  constructor
  · intro h
    rcases List.mem_map.1 h with ⟨n, _, rfl⟩
    exact List.take_prefix n s
  · intro h
    refine List.mem_map.2 ⟨t.length, ?_, ?_⟩
    · exact List.mem_range.2 (Nat.lt_succ_of_le h.length_le)
    · exact (List.prefix_iff_eq_take.1 h).symm

theorem reMatch_isSome_iff (r : RE) (s : List Char) :
    (reMatch r s).isSome = true ↔ MatchesAtStart r s := by
  unfold reMatch MatchesAtStart
  rw [List.find?_isSome]
  constructor
  · rintro ⟨t, ht, hm⟩
    exact ⟨t, mem_prefixesUpTo.1 ht, (RE.matchesExact_iff t r).1 hm⟩
  · rintro ⟨t, ht, hm⟩
    exact ⟨t, mem_prefixesUpTo.2 ht, (RE.matchesExact_iff t r).2 hm⟩

/-! ## Parsing pattern strings into `RE`

Models `re.compile` on the fragment of Python regex syntax exercised by the
repository: literal characters, escapes (`\s`, `\d`, `\w`, and escaped
punctuation), `.`, and the postfix quantifiers `*`, `+`, `?`.  Constructs
outside the fragment make the parse fail (`none`), as `re.compile` raises
on genuinely invalid patterns. -/

/-- Word characters, the regex class `\w` (ASCII range). -/
def pyIsWordChar (c : Char) : Bool :=
  c.isAlpha || c.isDigit || c = '_'

/-- Metacharacters outside the modelled fragment. -/
def isSpecialChar (c : Char) : Bool :=
  c = '(' || c = ')' || c = '[' || c = ']' || c = '\x7b' || c = '\x7d' ||
    c = '|' || c = '^' || c = '$'

/-- The expression denoted by the escape sequence `\c`. -/
def escAtom (c : Char) : Option RE :=
  if c = 's' then some (RE.cls pyIsSpace)
  else if c = 'd' then some (RE.cls Char.isDigit)
  else if c = 'w' then some (RE.cls pyIsWordChar)
  else if c.isAlpha || c.isDigit then none
  else some (RE.cls (fun d => d = c))

/-- Left-to-right parse of a pattern: atoms are accumulated (in reverse) and
a postfix quantifier rewrites the most recent atom. -/
def parseLoop : List RE → List Char → Option (List RE)
  | acc, [] => some acc.reverse
  | _, ['\\'] => none
  | acc, '\\' :: e :: rest =>
    match escAtom e with
    | some r => parseLoop (r :: acc) rest
    | none => none
  | acc, '*' :: rest =>
    match acc with
    | r :: rs => parseLoop (RE.star r :: rs) rest
    | [] => none
  | acc, '+' :: rest =>
    match acc with
    | r :: rs => parseLoop (RE.comp r (RE.star r) :: rs) rest
    | [] => none
  | acc, '?' :: rest =>
    match acc with
    | r :: rs => parseLoop (RE.alt r RE.eps :: rs) rest
    | [] => none
  | acc, '.' :: rest => parseLoop (RE.cls (fun c => c != '\n') :: acc) rest
  | acc, c :: rest =>
    if isSpecialChar c then none
    else parseLoop (RE.cls (fun d => d = c) :: acc) rest

/-- Model of `re.compile`: parse the pattern and concatenate its atoms. -/
def pyCompile (src : List Char) : Option RE :=
  (parseLoop [] src).map (fun l => l.foldr RE.comp RE.eps)

/-! ## `make_analysisd_callback` (event_monitor.py, lines 8-26)

```python
def make_analysisd_callback(pattern, prefix=eps.ANALYSISD_PREFIX):
    pattern = r'\s+'.join(pattern.split())
    regex = re.compile(r'{}{}'.format(prefix, pattern))
    return lambda line: regex.match(line) is not None
```
The `prefix` argument is modelled as `Option (List Char)` so that the
Python value `None` is representable; `'{}{}'.format(prefix, pattern)`
renders `None` as the text `None`. -/

/-- The string handed to `re.compile` by `make_analysisd_callback`. -/
def analysisd_regex_source (pattern : List Char) (pfx : Option (List Char)) : List Char :=
  pyFormatPre pfx ++ normalize_pattern pattern

/-- The callback returned by `make_analysisd_callback` (`none` when the
compiled expression falls outside the modelled regex fragment). -/
def make_analysisd_callback (pattern : List Char) (pfx : Option (List Char)) :
    Option (List Char → Bool) :=
  (pyCompile (analysisd_regex_source pattern pfx)).map
    (fun r => fun line => (reMatch r line).isSome)

/-- Application of the constructed callback to one line. -/
def applyCallback (cb : Option (List Char → Bool)) (line : List Char) : Option Bool :=
  cb.map (fun f => f line)

/-- The dynamic (Python-level) values relevant to the callback protocol:
booleans, match objects carrying the matched text, and `None`. -/
inductive PyVal : Type
  | vBool (b : Bool)
  | vMatch (matched : List Char)
  | vNone
deriving DecidableEq

/-- The Python value produced by the body of the returned lambda,
`regex.match(line) is not None`: always a boolean. -/
def analysisd_callback_value (pattern : List Char) (pfx : Option (List Char))
    (line : List Char) : Option PyVal :=
  (pyCompile (analysisd_regex_source pattern pfx)).map
    (fun r => PyVal.vBool ((reMatch r line).isSome))

/-! ## The spec's wording of whitespace normalization

The specification describes the caller's pattern as having "all runs of
whitespace collapsed to a single `\s+` token".  `specNormalize` is that
wording as a function: every maximal run of whitespace characters —
including a leading or trailing run — becomes the three-character token
`\s+`.  It is deliberately written independently of `normalize_pattern`
(the code's `r'\s+'.join(pattern.split())`) so the two can be compared. -/

/-- Replace every maximal whitespace run of the string by `\s+`. -/
def specNormalize : List Char → List Char
  | [] => []
  | [c] => if pyIsSpace c then sepToken else [c]
  | c :: d :: r =>
    if pyIsSpace c then
      if pyIsSpace d then specNormalize (d :: r)
      else sepToken ++ specNormalize (d :: r)
    else c :: specNormalize (d :: r)

/-- Remove leading whitespace (Python `str.lstrip()`). -/
def ltrimWS (s : List Char) : List Char := s.dropWhile pyIsSpace

/-- Remove trailing whitespace (Python `str.rstrip()`). -/
def rtrimWS (s : List Char) : List Char := (s.reverse.dropWhile pyIsSpace).reverse

/-- Remove leading and trailing whitespace (Python `str.strip()`). -/
def pyStrip (s : List Char) : List Char := rtrimWS (ltrimWS s)

/-- The string has no trailing whitespace character. -/
def NoTrailingWS (s : List Char) : Prop :=
  ∀ c, s.getLast? = some c → pyIsSpace c = false

/-- `sepToken` when the string opens with whitespace, else nothing. -/
def leadMark : List Char → List Char
  | [] => []
  | c :: _ => if pyIsSpace c then sepToken else []

theorem pySplit_eq_nil_iff {s : List Char} :
    pySplit s = [] ↔ ∀ c ∈ s, pyIsSpace c = true := by
  induction s with
  | nil => simp [pySplit]
  | cons c r ih =>
    by_cases hc : pyIsSpace c = true
    · rw [pySplit]
      simp only [hc, if_true, List.mem_cons]
      rw [ih]
      constructor
      · intro h d hd
        rcases hd with rfl | hd
        · exact hc
        · exact h d hd
      · intro h d hd
        exact h d (Or.inr hd)
    · constructor
      · intro h
        exfalso
        rw [pySplit] at h
        simp only [hc, if_false, Bool.false_eq_true] at h
        rcases r with _ | ⟨d, r'⟩
        · exact absurd h (by simp [pySplitGlue])
        · simp only [pySplitGlue] at h
          by_cases hd : pyIsSpace d = true
          · simp only [hd, if_true] at h
            exact absurd h (by simp)
          · simp only [hd, if_false, Bool.false_eq_true] at h
            rcases hps : pySplit (d :: r') with _ | ⟨w, rest⟩ <;> rw [hps] at h <;>
              simp [pySplitExtend] at h
      · intro h
        exact absurd (h c (List.mem_cons_self c r)) (by simp [hc])

theorem pySplit_cons_of_not_space {c : Char} {r : List Char}
    (hc : pyIsSpace c = false) :
    ∃ w rest, pySplit (c :: r) = (c :: w) :: rest := by
  rw [pySplit]
  simp only [hc, if_false, Bool.false_eq_true]
  rcases r with _ | ⟨d, r'⟩
  · exact ⟨[], [], rfl⟩
  · simp only [pySplitGlue]
    by_cases hd : pyIsSpace d = true
    · simp only [hd, if_true]
      exact ⟨[], pySplit (d :: r'), rfl⟩
    · simp only [hd, if_false, Bool.false_eq_true]
      rcases hps : pySplit (d :: r') with _ | ⟨w, rest⟩
      · exact ⟨[], [], by simp [hps, pySplitExtend]⟩
      · exact ⟨w, rest, by simp [hps, pySplitExtend]⟩

theorem joinSep_cons_cons (sep : List Char) (c : Char) (w : List Char)
    (rest : List (List Char)) :
    joinSep sep ((c :: w) :: rest) = c :: joinSep sep (w :: rest) := by
  rcases rest with _ | ⟨x, xs⟩
  · rfl
  · simp [joinSep]

theorem head?_dropWhile_not (p : Char → Bool) (l : List Char) {c : Char}
    (h : (l.dropWhile p).head? = some c) : p c = false := by
  induction l with
  | nil => simp at h
  | cons a l ih =>
    rw [List.dropWhile_cons] at h
    by_cases hp : p a = true
    · rw [if_pos hp] at h
      exact ih h
    · rw [if_neg hp] at h
      simp only [List.head?_cons, Option.some.injEq] at h
      subst h
      exact Bool.eq_false_iff.2 hp

theorem pySplit_cons_space {c : Char} {r : List Char} (h : pyIsSpace c = true) :
    pySplit (c :: r) = pySplit r := by
  rw [pySplit]
  simp [h]

theorem pySplit_cons_word_space {c d : Char} {r' : List Char}
    (hc : pyIsSpace c = false) (hd : pyIsSpace d = true) :
    pySplit (c :: d :: r') = [c] :: pySplit (d :: r') := by
  rw [pySplit]
  simp [hc, pySplitGlue, hd]

theorem pySplit_cons_word_word {c d : Char} {r' : List Char}
    (hc : pyIsSpace c = false) (hd : pyIsSpace d = false) :
    pySplit (c :: d :: r') = pySplitExtend c (pySplit (d :: r')) := by
  rw [pySplit]
  simp [hc, pySplitGlue, hd]

theorem specNormalize_space_space {c d : Char} {r' : List Char}
    (hc : pyIsSpace c = true) (hd : pyIsSpace d = true) :
    specNormalize (c :: d :: r') = specNormalize (d :: r') := by
  rw [specNormalize]
  simp [hc, hd]

theorem specNormalize_space_word {c d : Char} {r' : List Char}
    (hc : pyIsSpace c = true) (hd : pyIsSpace d = false) :
    specNormalize (c :: d :: r') = sepToken ++ specNormalize (d :: r') := by
  rw [specNormalize]
  simp [hc, hd]

theorem specNormalize_word {c d : Char} {r' : List Char}
    (hc : pyIsSpace c = false) :
    specNormalize (c :: d :: r') = c :: specNormalize (d :: r') := by
  rw [specNormalize]
  simp [hc]

/-- On a string with no trailing whitespace, the collapsed form of the spec
agrees with `'\s+'.join(split)` up to the possible leading `\s+` token. -/
theorem specNormalize_eq_join (s : List Char) (hs : NoTrailingWS s) :
    specNormalize s = leadMark s ++ joinSep sepToken (pySplit s) := by
  induction s with
  | nil => rfl
  | cons c r ih =>
    rcases r with _ | ⟨d, r'⟩
    · have hc : pyIsSpace c = false := hs c (by simp)
      simp [specNormalize, leadMark, pySplit, pySplitGlue, joinSep, hc]
    · have ht : NoTrailingWS (d :: r') := by
        intro e he
        exact hs e (by rw [List.getLast?_cons_cons]; exact he)
      have iht := ih ht
      by_cases hc : pyIsSpace c = true
      · by_cases hd : pyIsSpace d = true
        · rw [specNormalize_space_space hc hd, pySplit_cons_space hc, iht]
          simp only [leadMark, hc, hd, if_true]
        · rw [Bool.not_eq_true] at hd
          rw [specNormalize_space_word hc hd, pySplit_cons_space hc, iht]
          simp only [leadMark, hc, hd, if_true, if_false, Bool.false_eq_true,
            List.nil_append]
      · rw [Bool.not_eq_true] at hc
        have hps_ne : pySplit (d :: r') ≠ [] := by
          intro h0
          have hall := pySplit_eq_nil_iff.1 h0
          have hlast := List.getLast?_eq_getLast (d :: r') (by simp)
          have hmem := List.getLast_mem (l := d :: r') (by simp)
          have hws := ht _ hlast
          rw [hall _ hmem] at hws
          simp at hws
        by_cases hd : pyIsSpace d = true
        · rw [specNormalize_word hc, pySplit_cons_word_space hc hd, iht]
          simp only [leadMark, hc, hd, if_true, if_false, Bool.false_eq_true,
            List.nil_append]
          rcases hps : pySplit (d :: r') with _ | ⟨w, rest⟩
          · exact absurd hps hps_ne
          · have h1 : joinSep sepToken ([c] :: w :: rest)
                = c :: joinSep sepToken ([] :: w :: rest) :=
              joinSep_cons_cons sepToken c [] (w :: rest)
            rw [h1]
            simp [joinSep]
        · rw [Bool.not_eq_true] at hd
          rw [specNormalize_word hc, pySplit_cons_word_word hc hd, iht]
          simp only [leadMark, hc, hd, if_false, Bool.false_eq_true,
            List.nil_append]
          rcases pySplit_cons_of_not_space (r := r') hd with ⟨w, rest, hps⟩
          rw [hps]
          simp only [pySplitExtend]
          rw [joinSep_cons_cons, joinSep_cons_cons]
          exact congrArg (fun l => c :: l) (joinSep_cons_cons sepToken d w rest).symm

theorem pySplit_ltrim (s : List Char) : pySplit (ltrimWS s) = pySplit s := by
  induction s with
  | nil => rfl
  | cons c r ih =>
    rw [ltrimWS, List.dropWhile_cons]
    by_cases hc : pyIsSpace c = true
    · rw [if_pos hc]
      rw [pySplit]
      simp only [hc, if_true]
      exact ih
    · rw [if_neg hc]

theorem pySplit_append_allWS {t : List Char}
    (ht : ∀ c ∈ t, pyIsSpace c = true) :
    ∀ s, pySplit (s ++ t) = pySplit s := by
  intro s
  induction s with
  | nil =>
    simp only [List.nil_append]
    rw [pySplit_eq_nil_iff.2 ht]
    rfl
  | cons c s' ih =>
    by_cases hc : pyIsSpace c = true
    · rw [List.cons_append, pySplit]
      simp only [hc, if_true]
      rw [ih]
      rw [pySplit]
      simp only [hc, if_true]
    · rw [List.cons_append, pySplit]
      simp only [hc, if_false, Bool.false_eq_true]
      conv_rhs => rw [pySplit]
      simp only [hc, if_false, Bool.false_eq_true]
      rw [ih]
      rcases s' with _ | ⟨d, s''⟩
      · simp only [List.nil_append]
        rcases t with _ | ⟨e, t'⟩
        · rfl
        · have he : pyIsSpace e = true := ht e (by simp)
          simp only [pySplitGlue, he, if_true]
          rfl
      · simp only [List.cons_append, pySplitGlue]

theorem pySplit_rtrim (s : List Char) : pySplit (rtrimWS s) = pySplit s := by
  have hsplit : s = rtrimWS s ++ (s.reverse.takeWhile pyIsSpace).reverse := by
    rw [rtrimWS]
    rw [← List.reverse_append]
    rw [List.takeWhile_append_dropWhile]
    rw [List.reverse_reverse]
  have hws : ∀ c ∈ (s.reverse.takeWhile pyIsSpace).reverse, pyIsSpace c = true := by
    intro c hc
    exact List.mem_takeWhile_imp (List.mem_reverse.1 hc)
  conv_rhs => rw [hsplit]
  exact (pySplit_append_allWS hws (rtrimWS s)).symm

theorem pySplit_pyStrip (s : List Char) : pySplit (pyStrip s) = pySplit s := by
  rw [pyStrip, pySplit_rtrim, pySplit_ltrim]

theorem noTrailing_pyStrip (s : List Char) : NoTrailingWS (pyStrip s) := by
  intro c hc
  rw [pyStrip, rtrimWS, List.getLast?_reverse] at hc
  exact head?_dropWhile_not pyIsSpace _ hc

theorem leadMark_pyStrip (s : List Char) : leadMark (pyStrip s) = [] := by
  rcases h : pyStrip s with _ | ⟨c, rest⟩
  · rfl
  · have hpref : pyStrip s <+: ltrimWS s := by
      rw [pyStrip, rtrimWS]
      have hsuf : (ltrimWS s).reverse.dropWhile pyIsSpace <:+ (ltrimWS s).reverse :=
        List.dropWhile_suffix pyIsSpace
      have := List.reverse_prefix.2 hsuf
      rwa [List.reverse_reverse] at this
    rw [h] at hpref
    rcases hpref with ⟨tl, htl⟩
    have hhead : (ltrimWS s).head? = some c := by
      rw [← htl]
      rfl
    have hc : pyIsSpace c = false := head?_dropWhile_not pyIsSpace s hhead
    simp [leadMark, hc]

/-- The code's normalization `r'\s+'.join(pattern.split())` collapses
interior whitespace runs to `\s+` and removes leading and trailing
whitespace: it equals the spec's run-collapsing applied to the stripped
pattern. -/
theorem normalize_pattern_eq_spec_strip (p : List Char) :
    normalize_pattern p = specNormalize (pyStrip p) := by
  rw [normalize_pattern]
  rw [specNormalize_eq_join (pyStrip p) (noTrailing_pyStrip p)]
  rw [leadMark_pyStrip, pySplit_pyStrip]
  rfl

/-! ## The File/Queue Monitor scheduler

`wazuh_testing.tools.monitoring.FileMonitor` is not among the source files
of the repository snapshot (only its callers are), so the scheduler is
modelled from the spec, §4.2.  Time is discrete: one poll iteration takes
one poll interval, `elapsed ≥ timeout` is checked once per iteration, and
the lines newly readable at iteration `i` are given by the environment
function `newLines i`. -/

/-- Outcome of one monitor invocation: `success` carries the accumulated
matching lines and the iteration at which the monitor stopped; `timedOut`
carries the caller's error message and the elapsed time at the raise. -/
inductive MonitorResult : Type
  | success (found : List (List Char)) (endIter : Nat)
  | timedOut (errMsg : List Char) (elapsed : Nat)
deriving DecidableEq

/-- Result of scanning one batch of lines: either the accumulator reached
`accum_results` mid-batch, or the batch ended with a pending accumulator. -/
inductive ScanResult : Type
  | satisfied (found : List (List Char))
  | pending (acc : List (List Char))
deriving DecidableEq

/-- Modelled from the spec: §4.2 steps 2b-2c of the scheduler loop.  Each
line is tested in order; a match is appended to the accumulator; scanning
stops as soon as the accumulated count equals `accum_results`. -/
def scanBatch (cb : List Char → Bool) (accum : Nat) :
    List (List Char) → List (List Char) → ScanResult
  | acc, [] => .pending acc
  | acc, l :: ls =>
    let acc' := if cb l then acc ++ [l] else acc
    if acc'.length = accum then .satisfied acc'
    else scanBatch cb accum acc' ls

/-- Modelled from the spec: the §4.2 polling loop.  At each iteration the
timeout is checked first; otherwise the iteration's new lines are scanned,
and on success the iteration index is recorded.  `fuel` bounds the
recursion and is chosen large enough (`timeout + 1` with a positive
interval) that it never runs out before the timeout check fires. -/
def monitorGo (cb : List Char → Bool) (accum timeout interval : Nat)
    (errMsg : List Char) (newLines : Nat → List (List Char)) :
    Nat → Nat → Nat → List (List Char) → MonitorResult
  | 0, _, elapsed, _ => .timedOut errMsg elapsed
  | fuel + 1, i, elapsed, acc =>
    if timeout ≤ elapsed then .timedOut errMsg elapsed
    else
      match scanBatch cb accum acc (newLines i) with
      | .satisfied res => .success res i
      | .pending acc' =>
        monitorGo cb accum timeout interval errMsg newLines fuel (i + 1)
          (elapsed + interval) acc'

/-- Modelled from the spec: the monitor's per-source state is the
remembered read offset (§3, LineSource state). -/
structure FileMonitor : Type where
  position : Nat
deriving DecidableEq

/-- Modelled from the spec: §4.2 step 1 — the starting offset is 0 when
`update_position` is false, else the remembered offset. -/
def FileMonitor.resolveOffset (m : FileMonitor) (update_position : Bool) : Nat :=
  if update_position then m.position else 0

/-- The read offset into the growing source before iteration `i`, when the
full content visible at iteration `j` is `content j` and reading starts at
`startOff`. -/
def offsetAt (content : Nat → List (List Char)) (startOff : Nat) : Nat → Nat
  | 0 => startOff
  | i + 1 =>
    offsetAt content startOff i +
      ((content i).drop (offsetAt content startOff i)).length

/-- The new lines read at iteration `i` (§4.2 step 2a). -/
def newLinesFrom (content : Nat → List (List Char)) (startOff : Nat) (i : Nat) :
    List (List Char) :=
  (content i).drop (offsetAt content startOff i)

/-- Modelled from the spec: `FileMonitor.start` (§4.2 and §6, Monitor API).
Returns the match result together with the monitor state after the call;
the remembered offset advances only on success with `update_position`
true. -/
def FileMonitor.start (m : FileMonitor) (timeout : Nat) (cb : List Char → Bool)
    (accum : Nat) (update_position : Bool) (errMsg : List Char)
    (interval : Nat) (content : Nat → List (List Char)) :
    MonitorResult × FileMonitor :=
  let startOff := m.resolveOffset update_position
  let res := monitorGo cb accum timeout interval errMsg
    (newLinesFrom content startOff) (timeout + 1) 0 0 []
  match res with
  | .success _ i =>
    (res, if update_position then { position := offsetAt content startOff (i + 1) } else m)
  | .timedOut _ _ => (res, m)

/-! ## Wrappers from the sources -/

/-- `detect_archives_log_event` (remote.py, lines 96-110): starts the given
monitor with the caller's callback and error message; `accum_results`
defaults to 1.  The call is a plain delegation, so a `TimedOut` outcome
propagates to the caller unchanged. -/
def detect_archives_log_event (archives_monitor : FileMonitor)
    (cb : List Char → Bool) (error_message : List Char)
    (update_position : Bool) (timeout : Nat)
    (interval : Nat) (content : Nat → List (List Char)) :
    MonitorResult × FileMonitor :=
  archives_monitor.start timeout cb 1 update_position error_message interval content

/-- The default failure message built by `check_analysisd_event`
(event_monitor.py, line 44):
`f"Could not find this event in {file_to_monitor}: {callback}"`. -/
def analysisd_default_error_message (file_to_monitor callback : List Char) :
    List Char :=
  ("Could not find this event in ".data) ++ file_to_monitor ++
    (": ".data) ++ callback

/-- The error message `check_analysisd_event` hands to the monitor: the
caller's message when supplied, else the generated default. -/
def analysisd_error_message (error_message : Option (List Char))
    (file_to_monitor callback : List Char) : List Char :=
  match error_message with
  | none => analysisd_default_error_message file_to_monitor callback
  | some msg => msg

/-- `check_analysisd_event` (event_monitor.py, lines 29-48): builds the
callback from the pattern and the prefix, picks the error message, and
starts the monitor (a fresh monitor on `file_to_monitor` when none is
given).  `none` only when the compiled pattern falls outside the modelled
regex fragment. -/
def check_analysisd_event (file_monitor : Option FileMonitor)
    (callback : List Char) (error_message : Option (List Char))
    (update_position : Bool) (timeout : Nat) (pfx : Option (List Char))
    (accum_results : Nat) (file_to_monitor : List Char)
    (interval : Nat) (content : Nat → List (List Char)) :
    Option (MonitorResult × FileMonitor) :=
  let m := file_monitor.getD { position := 0 }
  let errMsg := analysisd_error_message error_message file_to_monitor callback
  (make_analysisd_callback callback pfx).map
    (fun cb => m.start timeout cb accum_results update_position errMsg interval content)

/-- Modelled from the spec: `monitoring.make_callback(pattern, prefix)`
(§4.1 and §6, callback construction API), which is not among the source
files.  Whitespace runs of the pattern are collapsed to `\s+`, the prefix
is prepended, and a `None` prefix applies no anchoring beyond the pattern
itself. -/
def make_callback (pattern : List Char) (pfx : Option (List Char)) :
    Option (List Char → Bool) :=
  let src := (match pfx with | none => [] | some p => p) ++ specNormalize pattern
  (pyCompile src).map (fun r => fun line => (reMatch r line).isSome)

/-- `check_remoted_log_event` (remote.py, lines 165-185): starts the given
monitor with a callback built from the pattern and the remoted prefix;
`update_position` defaults to false and `accum_results` to 1.  The value of
`monitoring.REMOTED_DETECTOR_PREFIX` is not among the source files, so the
prefix is a parameter. -/
def check_remoted_log_event (wazuh_log_monitor : FileMonitor)
    (callback_pattern : List Char) (error_message : List Char)
    (update_position : Bool) (timeout : Nat) (remoted_pfx : List Char)
    (interval : Nat) (content : Nat → List (List Char)) :
    Option (MonitorResult × FileMonitor) :=
  (make_callback callback_pattern (some remoted_pfx)).map
    (fun cb => wazuh_log_monitor.start timeout cb 1 update_position
      error_message interval content)

/-! ## Scheduler analysis: poll-iteration counting and batch scanning -/

/-- Number of poll iterations executed before the `elapsed ≥ timeout` check
fires, starting from `elapsed` and advancing by `interval` per iteration. -/
def stepsLeft (timeout interval : Nat) (elapsed : Nat) : Nat :=
  if h : timeout ≤ elapsed ∨ interval = 0 then 0
  else stepsLeft timeout interval (elapsed + interval) + 1
termination_by timeout - elapsed
decreasing_by simp only [not_or] at h; omega

/-- Concatenation of the batches `newLines i, …, newLines (i+j-1)`. -/
def joinRange (newLines : Nat → List (List Char)) : Nat → Nat → List (List Char)
  | _, 0 => []
  | i, j + 1 => newLines i ++ joinRange newLines (i + 1) j

theorem stepsLeft_of_le {timeout interval elapsed : Nat} (h : timeout ≤ elapsed) :
    stepsLeft timeout interval elapsed = 0 := by
  rw [stepsLeft]
  simp [h]

theorem stepsLeft_of_lt {timeout interval elapsed : Nat} (hi : 1 ≤ interval)
    (h : elapsed < timeout) :
    stepsLeft timeout interval elapsed
      = stepsLeft timeout interval (elapsed + interval) + 1 := by
  rw [stepsLeft]
  rw [dif_neg (by omega)]

theorem stepsLeft_le {timeout interval : Nat} (hi : 1 ≤ interval) :
    ∀ (k elapsed : Nat), timeout - elapsed ≤ k →
      stepsLeft timeout interval elapsed ≤ timeout - elapsed := by
  intro k
  induction k with
  | zero =>
    intro elapsed hk
    rw [stepsLeft_of_le (by omega)]
    omega
  | succ k ih =>
    intro elapsed hk
    by_cases h : timeout ≤ elapsed
    · rw [stepsLeft_of_le h]
      omega
    · rw [stepsLeft_of_lt hi (by omega)]
      have := ih (elapsed + interval) (by omega)
      omega

theorem stepsLeft_bounds {timeout interval : Nat} (hi : 1 ≤ interval) :
    ∀ (k elapsed : Nat), timeout - elapsed ≤ k → elapsed ≤ timeout →
      timeout ≤ elapsed + interval * stepsLeft timeout interval elapsed ∧
      elapsed + interval * stepsLeft timeout interval elapsed < timeout + interval := by
  intro k
  induction k with
  | zero =>
    intro elapsed hk he
    rw [stepsLeft_of_le (by omega)]
    omega
  | succ k ih =>
    intro elapsed hk he
    by_cases h : timeout ≤ elapsed
    · rw [stepsLeft_of_le h]
      omega
    · rw [stepsLeft_of_lt hi (by omega), Nat.mul_succ]
      by_cases h2 : elapsed + interval ≤ timeout
      · have := ih (elapsed + interval) (by omega) h2
        omega
      · rw [stepsLeft_of_le (by omega)]
        omega

theorem scanBatch_pending_eq {cb : List Char → Bool} {accum : Nat} :
    ∀ {lines acc acc' : List (List Char)},
      scanBatch cb accum acc lines = .pending acc' →
      acc' = acc ++ lines.filter cb := by
  intro lines
  induction lines with
  | nil =>
    intro acc acc' h
    simp only [scanBatch, ScanResult.pending.injEq] at h
    simp [h.symm]
  | cons l ls ih =>
    intro acc acc' h
    simp only [scanBatch] at h
    by_cases hl : cb l = true
    · simp only [hl, if_true] at h
      by_cases hlen : (acc ++ [l]).length = accum
      · rw [if_pos hlen] at h
        exact ScanResult.noConfusion h
      · rw [if_neg hlen] at h
        rw [ih h]
        simp [hl]
    · simp only [hl, Bool.false_eq_true, if_false] at h
      by_cases hlen : acc.length = accum
      · rw [if_pos hlen] at h
        exact ScanResult.noConfusion h
      · rw [if_neg hlen] at h
        rw [ih h]
        simp [List.filter_cons, hl]

theorem scanBatch_pending_lt {cb : List Char → Bool} {accum : Nat} :
    ∀ {lines acc acc' : List (List Char)}, acc.length < accum →
      scanBatch cb accum acc lines = .pending acc' → acc'.length < accum := by
  intro lines
  induction lines with
  | nil =>
    intro acc acc' hlt h
    simp only [scanBatch, ScanResult.pending.injEq] at h
    rw [← h]
    exact hlt
  | cons l ls ih =>
    intro acc acc' hlt h
    simp only [scanBatch] at h
    by_cases hl : cb l = true
    · simp only [hl, if_true] at h
      by_cases hlen : (acc ++ [l]).length = accum
      · rw [if_pos hlen] at h
        exact ScanResult.noConfusion h
      · rw [if_neg hlen] at h
        exact ih (by simp at hlen ⊢; omega) h
    · simp only [hl, Bool.false_eq_true, if_false] at h
      by_cases hlen : acc.length = accum
      · rw [if_pos hlen] at h
        exact ScanResult.noConfusion h
      · rw [if_neg hlen] at h
        exact ih hlt h

theorem scanBatch_satisfied_length {cb : List Char → Bool} {accum : Nat} :
    ∀ {lines acc res : List (List Char)},
      scanBatch cb accum acc lines = .satisfied res → res.length = accum := by
  intro lines
  induction lines with
  | nil =>
    intro acc res h
    exact ScanResult.noConfusion h
  | cons l ls ih =>
    intro acc res h
    simp only [scanBatch] at h
    by_cases hl : cb l = true
    · simp only [hl, if_true] at h
      by_cases hlen : (acc ++ [l]).length = accum
      · rw [if_pos hlen] at h
        cases h
        exact hlen
      · rw [if_neg hlen] at h
        exact ih h
    · simp only [hl, Bool.false_eq_true, if_false] at h
      by_cases hlen : acc.length = accum
      · rw [if_pos hlen] at h
        cases h
        exact hlen
      · rw [if_neg hlen] at h
        exact ih h

theorem scanBatch_satisfied_count {cb : List Char → Bool} {accum : Nat} :
    ∀ {lines acc res : List (List Char)},
      scanBatch cb accum acc lines = .satisfied res →
      accum ≤ acc.length + lines.countP cb := by
  intro lines
  induction lines with
  | nil =>
    intro acc res h
    exact ScanResult.noConfusion h
  | cons l ls ih =>
    intro acc res h
    simp only [scanBatch] at h
    rw [List.countP_cons]
    by_cases hl : cb l = true
    · simp only [hl, if_true] at h ⊢
      by_cases hlen : (acc ++ [l]).length = accum
      · simp only [List.length_append, List.length_singleton] at hlen
        omega
      · rw [if_neg hlen] at h
        have := ih h
        simp only [List.length_append, List.length_singleton] at this
        omega
    · simp only [hl, Bool.false_eq_true, if_false] at h ⊢
      by_cases hlen : acc.length = accum
      · omega
      · rw [if_neg hlen] at h
        have := ih h
        omega

theorem scanBatch_satisfied_of_count {cb : List Char → Bool} {accum : Nat} :
    ∀ {lines acc : List (List Char)}, acc.length < accum →
      accum ≤ acc.length + lines.countP cb →
      ∃ res, scanBatch cb accum acc lines = .satisfied res := by
  intro lines
  induction lines with
  | nil =>
    intro acc hlt hcount
    simp only [List.countP_nil] at hcount
    omega
  | cons l ls ih =>
    intro acc hlt hcount
    rw [List.countP_cons] at hcount
    simp only [scanBatch]
    by_cases hl : cb l = true
    · simp only [hl, if_true] at hcount ⊢
      by_cases hlen : (acc ++ [l]).length = accum
      · exact ⟨acc ++ [l], by rw [if_pos hlen]⟩
      · rw [if_neg hlen]
        refine ih ?_ ?_
        · simp only [List.length_append, List.length_singleton] at hlen ⊢
          omega
        · simp only [List.length_append, List.length_singleton]
          omega
    · simp only [hl, Bool.false_eq_true, if_false] at hcount ⊢
      rw [if_neg (by omega)]
      exact ih hlt (by omega)

theorem scanBatch_satisfied_mem {cb : List Char → Bool} {accum : Nat} :
    ∀ {lines acc res : List (List Char)},
      scanBatch cb accum acc lines = .satisfied res →
      ∀ x ∈ res, x ∈ acc ∨ (cb x = true ∧ x ∈ lines) := by
  intro lines
  induction lines with
  | nil =>
    intro acc res h
    exact ScanResult.noConfusion h
  | cons l ls ih =>
    intro acc res h
    simp only [scanBatch] at h
    by_cases hl : cb l = true
    · simp only [hl, if_true] at h
      by_cases hlen : (acc ++ [l]).length = accum
      · rw [if_pos hlen] at h
        cases h
        intro x hx
        rcases List.mem_append.1 hx with hx | hx
        · exact Or.inl hx
        · rcases List.mem_singleton.1 hx with rfl
          exact Or.inr ⟨hl, List.mem_cons_self _ _⟩
      · rw [if_neg hlen] at h
        intro x hx
        rcases ih h x hx with hx' | ⟨hcb, hx'⟩
        · rcases List.mem_append.1 hx' with hx'' | hx''
          · exact Or.inl hx''
          · rcases List.mem_singleton.1 hx'' with rfl
            exact Or.inr ⟨hl, List.mem_cons_self _ _⟩
        · exact Or.inr ⟨hcb, List.mem_cons_of_mem _ hx'⟩
    · simp only [hl, Bool.false_eq_true, if_false] at h
      by_cases hlen : acc.length = accum
      · rw [if_pos hlen] at h
        cases h
        intro x hx
        exact Or.inl hx
      · rw [if_neg hlen] at h
        intro x hx
        rcases ih h x hx with hx' | ⟨hcb, hx'⟩
        · exact Or.inl hx'
        · exact Or.inr ⟨hcb, List.mem_cons_of_mem _ hx'⟩

theorem scanBatch_all_fail {cb : List Char → Bool} {accum : Nat} :
    ∀ {lines acc : List (List Char)}, (∀ x ∈ lines, cb x = false) →
      acc.length ≠ accum → scanBatch cb accum acc lines = .pending acc := by
  intro lines
  induction lines with
  | nil =>
    intro acc _ _
    rfl
  | cons l ls ih =>
    intro acc hfail hne
    have hl : cb l = false := hfail l (List.mem_cons_self _ _)
    simp only [scanBatch, hl, Bool.false_eq_true, if_false]
    rw [if_neg hne]
    exact ih (fun x hx => hfail x (List.mem_cons_of_mem _ hx)) hne

theorem monitorGo_shape (cb : List Char → Bool) (accum timeout interval : Nat)
    (errMsg : List Char) (newLines : Nat → List (List Char)) :
    ∀ (fuel i elapsed : Nat) (acc : List (List Char)),
      (∃ l k, monitorGo cb accum timeout interval errMsg newLines fuel i elapsed acc
        = .success l k) ∨
      (∃ T, monitorGo cb accum timeout interval errMsg newLines fuel i elapsed acc
        = .timedOut errMsg T) := by
  intro fuel
  induction fuel with
  | zero =>
    intro i elapsed acc
    exact Or.inr ⟨elapsed, rfl⟩
  | succ fuel ih =>
    intro i elapsed acc
    by_cases ht : timeout ≤ elapsed
    · exact Or.inr ⟨elapsed, by simp [monitorGo, ht]⟩
    · rcases hscan : scanBatch cb accum acc (newLines i) with res | acc'
      · exact Or.inl ⟨res, i, by simp [monitorGo, ht, hscan]⟩
      · have hred : monitorGo cb accum timeout interval errMsg newLines (fuel + 1) i
            elapsed acc
            = monitorGo cb accum timeout interval errMsg newLines fuel (i + 1)
              (elapsed + interval) acc' := by
          simp [monitorGo, ht, hscan]
        rw [hred]
        exact ih (i + 1) (elapsed + interval) acc'

theorem monitorGo_success_length (cb : List Char → Bool)
    (accum timeout interval : Nat) (errMsg : List Char)
    (newLines : Nat → List (List Char)) :
    ∀ (fuel i elapsed : Nat) (acc l : List (List Char)) (k : Nat),
      monitorGo cb accum timeout interval errMsg newLines fuel i elapsed acc
        = .success l k → l.length = accum := by
  intro fuel
  induction fuel with
  | zero =>
    intro i elapsed acc l k h
    exact MonitorResult.noConfusion h
  | succ fuel ih =>
    intro i elapsed acc l k h
    by_cases ht : timeout ≤ elapsed
    · simp [monitorGo, ht] at h
    · rcases hscan : scanBatch cb accum acc (newLines i) with res | acc'
      · simp only [monitorGo, ht, if_false, hscan] at h
        rcases h with ⟨rfl, rfl⟩
        exact scanBatch_satisfied_length hscan
      · simp only [monitorGo, ht, if_false, hscan] at h
        exact ih _ _ _ _ _ h

theorem monitorGo_success_mem (cb : List Char → Bool)
    (accum timeout interval : Nat) (errMsg : List Char)
    (newLines : Nat → List (List Char)) :
    ∀ (fuel i elapsed : Nat) (acc l : List (List Char)) (k : Nat),
      (∀ x ∈ acc, cb x = true ∧ ∃ j, x ∈ newLines j) →
      monitorGo cb accum timeout interval errMsg newLines fuel i elapsed acc
        = .success l k →
      ∀ x ∈ l, cb x = true ∧ ∃ j, x ∈ newLines j := by
  intro fuel
  induction fuel with
  | zero =>
    intro i elapsed acc l k _ h
    exact MonitorResult.noConfusion h
  | succ fuel ih =>
    intro i elapsed acc l k hacc h
    by_cases ht : timeout ≤ elapsed
    · simp [monitorGo, ht] at h
    · rcases hscan : scanBatch cb accum acc (newLines i) with res | acc'
      · simp only [monitorGo, ht, if_false, hscan] at h
        rcases h with ⟨rfl, rfl⟩
        intro x hx
        rcases scanBatch_satisfied_mem hscan x hx with hx' | ⟨hcb, hx'⟩
        · exact hacc x hx'
        · exact ⟨hcb, i, hx'⟩
      · simp only [monitorGo, ht, if_false, hscan] at h
        refine ih _ _ _ _ _ ?_ h
        intro x hx
        rw [scanBatch_pending_eq hscan] at hx
        rcases List.mem_append.1 hx with hx' | hx'
        · exact hacc x hx'
        · rcases List.mem_filter.1 hx' with ⟨hmem, hcb⟩
          exact ⟨hcb, i, hmem⟩

theorem monitorGo_success_iff (cb : List Char → Bool)
    (accum timeout interval : Nat) (errMsg : List Char)
    (newLines : Nat → List (List Char)) (hitv : 1 ≤ interval) :
    ∀ (fuel i elapsed : Nat) (acc : List (List Char)),
      acc.length < accum →
      stepsLeft timeout interval elapsed < fuel →
      ((∃ l k, monitorGo cb accum timeout interval errMsg newLines fuel i elapsed acc
          = .success l k) ↔
        accum ≤ acc.length +
          (joinRange newLines i (stepsLeft timeout interval elapsed)).countP cb) := by
  intro fuel
  induction fuel with
  | zero =>
    intro i elapsed acc _ hfuel
    exact absurd hfuel (Nat.not_lt_zero _)
  | succ fuel ih =>
    intro i elapsed acc hlt hfuel
    by_cases ht : timeout ≤ elapsed
    · rw [stepsLeft_of_le ht]
      constructor
      · rintro ⟨l, k, h⟩
        simp [monitorGo, ht] at h
      · intro hcount
        simp only [joinRange, List.countP_nil] at hcount
        omega
    · rw [stepsLeft_of_lt hitv (by omega)] at hfuel ⊢
      rw [joinRange, List.countP_append]
      rcases hscan : scanBatch cb accum acc (newLines i) with res | acc'
      · have hcount := scanBatch_satisfied_count hscan
        constructor
        · intro _
          omega
        · intro _
          exact ⟨res, i, by simp [monitorGo, ht, hscan]⟩
      · have hred : monitorGo cb accum timeout interval errMsg newLines (fuel + 1) i
            elapsed acc
            = monitorGo cb accum timeout interval errMsg newLines fuel (i + 1)
              (elapsed + interval) acc' := by
          simp [monitorGo, ht, hscan]
        rw [hred]
        have hlen : acc'.length = acc.length + (newLines i).countP cb := by
          rw [scanBatch_pending_eq hscan]
          rw [List.length_append, List.countP_eq_length_filter]
        have hlt' : acc'.length < accum := scanBatch_pending_lt hlt hscan
        rw [ih (i + 1) (elapsed + interval) acc' hlt' (by omega)]
        omega

theorem monitorGo_timeout_run (cb : List Char → Bool)
    (accum timeout interval : Nat) (errMsg : List Char)
    (newLines : Nat → List (List Char)) (hitv : 1 ≤ interval)
    (haccum : 1 ≤ accum) (hfail : ∀ j, ∀ x ∈ newLines j, cb x = false) :
    ∀ (fuel i elapsed : Nat),
      stepsLeft timeout interval elapsed < fuel →
      monitorGo cb accum timeout interval errMsg newLines fuel i elapsed []
        = .timedOut errMsg (elapsed + interval * stepsLeft timeout interval elapsed) := by
  intro fuel
  induction fuel with
  | zero =>
    intro i elapsed hfuel
    exact absurd hfuel (Nat.not_lt_zero _)
  | succ fuel ih =>
    intro i elapsed hfuel
    by_cases ht : timeout ≤ elapsed
    · rw [stepsLeft_of_le ht]
      simp [monitorGo, ht]
    · rw [stepsLeft_of_lt hitv (by omega)] at hfuel ⊢
      have hscan : scanBatch cb accum [] (newLines i) = .pending [] :=
        scanBatch_all_fail (hfail i) (by simpa using by omega)
      have hred : monitorGo cb accum timeout interval errMsg newLines (fuel + 1) i
          elapsed []
          = monitorGo cb accum timeout interval errMsg newLines fuel (i + 1)
            (elapsed + interval) [] := by
        simp [monitorGo, ht, hscan]
      rw [hred, ih (i + 1) (elapsed + interval) (by omega), Nat.mul_succ]
      have : elapsed + interval + interval * stepsLeft timeout interval (elapsed + interval)
          = elapsed + (interval * stepsLeft timeout interval (elapsed + interval) + interval) := by
        omega
      rw [this]

theorem FileMonitor.start_fst (m : FileMonitor) (t : Nat) (cb : List Char → Bool)
    (accum : Nat) (up : Bool) (e : List Char) (itv : Nat)
    (content : Nat → List (List Char)) :
    (m.start t cb accum up e itv content).fst
      = monitorGo cb accum t itv e (newLinesFrom content (m.resolveOffset up))
          (t + 1) 0 0 [] := by
  rw [FileMonitor.start]
  rcases monitorGo cb accum t itv e (newLinesFrom content (m.resolveOffset up))
      (t + 1) 0 0 [] with l | T
  · cases up <;> rfl
  · cases up <;> rfl

theorem FileMonitor.start_false_snd (m : FileMonitor) (t : Nat)
    (cb : List Char → Bool) (accum : Nat) (e : List Char) (itv : Nat)
    (content : Nat → List (List Char)) :
    (m.start t cb accum false e itv content).snd = m := by
  rw [FileMonitor.start]
  rcases monitorGo cb accum t itv e (newLinesFrom content (m.resolveOffset false))
      (t + 1) 0 0 [] with l | T
  · rfl
  · rfl

/-! ## `check_queue_socket_event` (remote.py, lines 263-300)

```python
control_service('stop', daemon='wazuh-analysisd')
file.bind_unix_socket(QUEUE_SOCKET_PATH, UDP)
mitm = monitoring.ManInTheMiddle(...); mitm.start()
socket_monitor = monitoring.QueueMonitor(mitm.queue)
try:
    socket_monitor.start(...)
finally:
    mitm.shutdown()
    control_service('start', daemon='wazuh-analysisd')
```
The externally visible steps are recorded as an action trace; the socket
monitor's outcome is a parameter (`QueueMonitor` is not among the source
files).  Python `try/finally` runs the finalizer on both the return path
and the exception path, and then returns or re-raises the body's
outcome. -/

/-- The side-effecting steps taken by `check_queue_socket_event`. -/
inductive QueueAction : Type
  | controlService (op daemon : List Char)
  | bindUnixSocket (path protocol : List Char)
  | mitmStart
  | socketMonitorStart
  | mitmShutdown
deriving DecidableEq

/-- Python `try/finally`: the finalizer's actions always follow the body's,
and the body's outcome (normal return or raised failure) is preserved. -/
def tryFinally (body : MonitorResult × List QueueAction)
    (finalizer : List QueueAction) : MonitorResult × List QueueAction :=
  (body.fst, body.snd ++ finalizer)

/-- `check_queue_socket_event`: returns the socket monitor's outcome
(returned on success, re-raised on timeout) together with the ordered
action trace of the call. -/
def check_queue_socket_event (queue_socket_path : List Char)
    (monitorOutcome : MonitorResult) : MonitorResult × List QueueAction :=
  let setup : List QueueAction :=
    [ .controlService ("stop".data) ("wazuh-analysisd".data)
    , .bindUnixSocket queue_socket_path ("UDP".data)
    , .mitmStart ]
  let body := tryFinally (monitorOutcome, [.socketMonitorStart])
    [ .mitmShutdown
    , .controlService ("start".data) ("wazuh-analysisd".data) ]
  (body.fst, setup ++ body.snd)

/-! ## `send_ping_pong_messages` (remote.py, lines 130-162) -/

/-- Python `str.upper()` (ASCII). -/
def pyUpper (s : List Char) : List Char := s.map Char.toUpper

/-- The bytes of an ASCII string (`str.encode()` for ASCII text). -/
def asciiBytes (s : List Char) : List Nat := s.map Char.toNat

/-- Python `v.to_bytes(n, 'little')`. -/
def toBytesLE : Nat → Nat → List Nat
  | 0, _ => []
  | k + 1, v => (v % 256) :: toBytesLE k (v / 256)

/-- Python `b[-n:]` on a byte string. -/
def pyLastBytes (n : Nat) (b : List Nat) : List Nat := b.drop (b.length - n)

/-- `send_ping_pong_messages(protocol, manager_address, port)`: the value
sent and the value returned, given the server's response `respond` to the
sent bytes.  Mirrors the source: `protocol = protocol.upper()`; UDP sends
`b'#ping'` and returns the response; TCP prepends the 4-byte little-endian
length and returns `response[-5:]`. -/
def send_ping_pong_messages (protocol : List Char)
    (respond : List Nat → List Nat) : List Nat × List Nat :=
  let proto := pyUpper protocol
  let ping_msg :=
    if proto = "UDP".data then asciiBytes ("#ping".data)
    else toBytesLE 4 (asciiBytes ("#ping".data)).length ++ asciiBytes ("#ping".data)
  let response := respond ping_msg
  (ping_msg, if proto = "UDP".data then response else pyLastBytes 5 response)

/-! ## Claim theorems -/

/-- C2: whenever fewer than `accum_results` matches are observed before the
timeout, the start operation yields a `TimedOut` failure carrying exactly
the caller-supplied `error_message` (every non-success outcome is
`timedOut e T`, and a success exhibits `accum` matching observed lines, so
fewer observed matches force the `TimedOut`); the failure is never
swallowed: `detect_archives_log_event` and `check_analysisd_event` are
plain delegations returning the start operation's outcome unchanged. -/
theorem claim_C2 (m : FileMonitor) (cb : List Char → Bool) (e : List Char)
    (up : Bool) (t itv accum : Nat) (content : Nat → List (List Char))
    (pat file : List Char) (em : Option (List Char)) (pfx : Option (List Char))
    (fm : Option FileMonitor) :
    detect_archives_log_event m cb e up t itv content
      = m.start t cb 1 up e itv content ∧
    check_analysisd_event fm pat em up t pfx accum file itv content
      = (make_analysisd_callback pat pfx).map
          (fun cb' => (fm.getD { position := 0 }).start t cb' accum up
            (analysisd_error_message em file pat) itv content) ∧
    ((∃ l k, (m.start t cb accum up e itv content).fst = .success l k
        ∧ l.length = accum ∧ ∀ x ∈ l, cb x = true ∧ ∃ j, x ∈ content j) ∨
      (∃ T, (m.start t cb accum up e itv content).fst = .timedOut e T)) := by
  refine ⟨rfl, rfl, ?_⟩
  rw [FileMonitor.start_fst]
  rcases monitorGo_shape cb accum t itv e
      (newLinesFrom content (m.resolveOffset up)) (t + 1) 0 0 [] with ⟨l, k, h⟩ | ⟨T, h⟩
  · refine Or.inl ⟨l, k, h, monitorGo_success_length _ _ _ _ _ _ _ _ _ _ _ _ h, ?_⟩
    intro x hx
    have hmem := monitorGo_success_mem cb accum t itv e
      (newLinesFrom content (m.resolveOffset up)) (t + 1) 0 0 [] l k
      (by intro y hy; exact absurd hy (List.not_mem_nil y)) h x hx
    rcases hmem with ⟨hcb, j, hj⟩
    exact ⟨hcb, j, List.mem_of_mem_drop hj⟩
  · exact Or.inr ⟨T, h⟩

/-- C3: with `accum_results = N > 1`, a start call returns Success exactly
when `N` matching lines occur in the concatenation of all the line batches
the monitor reads before the timeout fires — matches are accumulated
across poll iterations, never reset per batch. -/
theorem claim_C3 (N t itv : Nat) (cb : List Char → Bool) (e : List Char)
    (m : FileMonitor) (up : Bool) (content : Nat → List (List Char))
    (hN : 1 < N) (hitv : 1 ≤ itv) :
    (∃ l k, (m.start t cb N up e itv content).fst = .success l k) ↔
      N ≤ (joinRange (newLinesFrom content (m.resolveOffset up)) 0
            (stepsLeft t itv 0)).countP cb := by
  rw [FileMonitor.start_fst]
  have hfuel : stepsLeft t itv 0 < t + 1 := by
    have := @stepsLeft_le t itv hitv t 0 (by omega)
    omega
  have hiff := monitorGo_success_iff cb N t itv e
    (newLinesFrom content (m.resolveOffset up)) hitv (t + 1) 0 0 []
    (by simp; omega) hfuel
  simpa using hiff

/-- C3 witness at a concrete input: `N = 2`, two matching lines in the
first batch. -/
theorem claim_C3_witness :
    (∃ l k, (FileMonitor.start { position := 0 } 1 (fun _ => true) 2 false [] 1
        (fun _ => [['a'], ['b']])).fst = .success l k) ↔
      2 ≤ (joinRange (newLinesFrom (fun _ => [['a'], ['b']])
            (FileMonitor.resolveOffset { position := 0 } false)) 0
            (stepsLeft 1 1 0)).countP (fun _ => true) :=
  claim_C3 2 1 1 (fun _ => true) [] { position := 0 } false
    (fun _ => [['a'], ['b']]) (by omega) (by omega)

/-- C4: with `update_position = false` the start operation consumes no
read position — the monitor state is returned unchanged and the scan
starts from offset 0 — so calling `check_remoted_log_event` twice in a row
against the same source yields the same match result both times. -/
theorem claim_C4 (m : FileMonitor) (p e : List Char) (t : Nat)
    (pre : List Char) (itv : Nat) (content : Nat → List (List Char))
    (r1 : MonitorResult) (m1 : FileMonitor)
    (h : check_remoted_log_event m p e false t pre itv content = some (r1, m1)) :
    m1 = m ∧
    check_remoted_log_event m1 p e false t pre itv content = some (r1, m1) ∧
    m.resolveOffset false = 0 := by
  rcases hmc : make_callback p (some pre) with _ | cb
  · rw [check_remoted_log_event, hmc] at h
    exact Option.noConfusion h
  · rw [check_remoted_log_event, hmc, Option.map_some'] at h
    have hpair := Option.some.inj h
    have hm1 : m1 = m := by
      have := congrArg Prod.snd hpair
      rw [FileMonitor.start_false_snd] at this
      exact this.symm
    refine ⟨hm1, ?_, rfl⟩
    rw [check_remoted_log_event, hmc, Option.map_some', hm1, hpair, hm1]

/-- C4 witness at a concrete input: pattern `a`, prefix `P`, empty source,
timeout 1 — both calls time out identically and the state is unchanged. -/
theorem claim_C4_witness :
    ({ position := 0 } : FileMonitor) = { position := 0 } ∧
    check_remoted_log_event { position := 0 } ['a'] [] false 1 ['P'] 1
        (fun _ => []) = some (.timedOut [] 1, { position := 0 }) ∧
    FileMonitor.resolveOffset { position := 0 } false = 0 :=
  claim_C4 { position := 0 } ['a'] [] 1 ['P'] 1 (fun _ => [])
    (.timedOut [] 1) { position := 0 } rfl

/-- C7: whatever the socket monitor's outcome — Success or TimedOut — the
interceptor's `shutdown()` and the restart of wazuh-analysisd are executed
(the `finally` block) before `check_queue_socket_event` returns or
re-raises that outcome, and the outcome itself is preserved. -/
theorem claim_C7 (path : List Char) (outcome : MonitorResult) :
    (check_queue_socket_event path outcome).fst = outcome ∧
    (check_queue_socket_event path outcome).snd
      = [ QueueAction.controlService ("stop".data) ("wazuh-analysisd".data)
        , QueueAction.bindUnixSocket path ("UDP".data)
        , QueueAction.mitmStart
        , QueueAction.socketMonitorStart
        , QueueAction.mitmShutdown
        , QueueAction.controlService ("start".data) ("wazuh-analysisd".data) ] ∧
    QueueAction.mitmShutdown ∈ (check_queue_socket_event path outcome).snd ∧
    QueueAction.controlService ("start".data) ("wazuh-analysisd".data)
      ∈ (check_queue_socket_event path outcome).snd := by
  refine ⟨rfl, rfl, ?_, ?_⟩
  · simp [check_queue_socket_event, tryFinally]
  · simp [check_queue_socket_event, tryFinally]

/-- C8: when the caller of `check_analysisd_event` supplies no
error message, the monitor is started with the generated default
`"Could not find this event in {file}: {pattern}"`, which contains both the
monitored file and the pattern; a supplied message is passed through
unchanged. -/
theorem claim_C8 (file_to_monitor callback msg : List Char)
    (m : FileMonitor) (up : Bool) (t : Nat) (pfx : Option (List Char))
    (accum itv : Nat) (content : Nat → List (List Char))
    (em : Option (List Char)) :
    analysisd_error_message (some msg) file_to_monitor callback = msg ∧
    analysisd_error_message none file_to_monitor callback
      = ("Could not find this event in ".data) ++ file_to_monitor
        ++ (": ".data) ++ callback ∧
    file_to_monitor <:+: analysisd_default_error_message file_to_monitor callback ∧
    callback <:+: analysisd_default_error_message file_to_monitor callback ∧
    check_analysisd_event (some m) callback em up t pfx accum file_to_monitor
        itv content
      = (make_analysisd_callback callback pfx).map
          (fun cb => m.start t cb accum up
            (analysisd_error_message em file_to_monitor callback) itv content) := by
  refine ⟨rfl, by simp [analysisd_error_message, analysisd_default_error_message], ?_, ?_, rfl⟩
  · exact ⟨"Could not find this event in ".data, (": ".data) ++ callback,
      by simp [analysisd_default_error_message]⟩
  · exact ⟨("Could not find this event in ".data) ++ file_to_monitor ++ (": ".data),
      [], by simp [analysisd_default_error_message]⟩

/-- C9: when the pattern never appears in the source, the start operation
raises `TimedOut` at a recorded elapsed time `T` with
`timeout ≤ T ≤ timeout + interval`: the timeout is checked once per poll
iteration, so the overrun is bounded by one poll interval. -/
theorem claim_C9 (m : FileMonitor) (cb : List Char → Bool) (e : List Char)
    (up : Bool) (t itv accum : Nat) (content : Nat → List (List Char))
    (hitv : 1 ≤ itv) (haccum : 1 ≤ accum)
    (habsent : ∀ j, ∀ x ∈ content j, cb x = false) :
    ∃ T, (m.start t cb accum up e itv content).fst = .timedOut e T ∧
      t ≤ T ∧ T ≤ t + itv := by
  rw [FileMonitor.start_fst]
  have hfail : ∀ j, ∀ x ∈ newLinesFrom content (m.resolveOffset up) j, cb x = false := by
    intro j x hx
    exact habsent j x (List.mem_of_mem_drop hx)
  have hfuel : stepsLeft t itv 0 < t + 1 := by
    have := @stepsLeft_le t itv hitv t 0 (by omega)
    omega
  have hrun := monitorGo_timeout_run cb accum t itv e
    (newLinesFrom content (m.resolveOffset up)) hitv haccum hfail (t + 1) 0 0 hfuel
  have hbounds := @stepsLeft_bounds t itv hitv t 0 (by omega) (by omega)
  refine ⟨itv * stepsLeft t itv 0, ?_, by omega, by omega⟩
  simpa using hrun

/-- C9 witness at a concrete input: empty source, timeout 1, interval 1 —
the monitor times out at elapsed time 1. -/
theorem claim_C9_witness :
    ∃ T, (FileMonitor.start { position := 0 } 1 (fun _ => false) 1 false ['e'] 1
        (fun _ => [])).fst = .timedOut ['e'] T ∧ 1 ≤ T ∧ T ≤ 1 + 1 :=
  claim_C9 { position := 0 } (fun _ => false) ['e'] false 1 1 1 (fun _ => [])
    (by omega) (by omega)
    (by intro j x hx; exact absurd hx (List.not_mem_nil x))

/-- C10: `send_ping_pong_messages` sends exactly `b'#ping'` over UDP
(protocol compared case-insensitively) and returns the raw response;
otherwise it sends the 4-byte little-endian encoding of 5 followed by the
ASCII bytes of `#ping` and returns the last 5 bytes (`response[-5:]`) of
the response. -/
theorem claim_C10 (protocol : List Char) (respond : List Nat → List Nat) :
    send_ping_pong_messages protocol respond =
      if pyUpper protocol = "UDP".data then
        ([35, 112, 105, 110, 103], respond [35, 112, 105, 110, 103])
      else
        ([5, 0, 0, 0, 35, 112, 105, 110, 103],
          (respond [5, 0, 0, 0, 35, 112, 105, 110, 103]).drop
            ((respond [5, 0, 0, 0, 35, 112, 105, 110, 103]).length - 5)) := by
  have hping : asciiBytes ("#ping".data) = [35, 112, 105, 110, 103] := by decide
  have hmsg : toBytesLE 4 (asciiBytes ("#ping".data)).length
      ++ asciiBytes ("#ping".data) = [5, 0, 0, 0, 35, 112, 105, 110, 103] := by decide
  by_cases h : pyUpper protocol = "UDP".data
  · rw [if_pos h]
    simp [send_ping_pong_messages, h, hping]
  · rw [if_neg h]
    simp [send_ping_pong_messages, h, hmsg, pyLastBytes]

/-- C1 as stated is false at pattern `" a"`, prefix `"X"`, line `"X a"`:
the code drops the leading whitespace run (compiling `Xa`), while the claim
says every whitespace run becomes `\s+` (compiling `X\s+a`, which matches
the line at its first character although the code's callback rejects it). -/
theorem claim_C1_counterexample :
    ¬ (∀ (p pre line : List Char), pre ≠ [] →
        ∀ b, applyCallback (make_analysisd_callback p (some pre)) line = some b →
          (b = true ↔ ∃ r, pyCompile (pre ++ specNormalize p) = some r
            ∧ MatchesAtStart r line)) := by
  intro h
  have happ : applyCallback (make_analysisd_callback ([' ', 'a']) (some ['X']))
      (['X', ' ', 'a']) = some false := by rfl
  have hiff := h [' ', 'a'] ['X'] ['X', ' ', 'a'] (by simp) false happ
  have hpipe : (pyCompile (['X'] ++ specNormalize [' ', 'a'])).map
      (fun r => (reMatch r ['X', ' ', 'a']).isSome) = some true := by rfl
  rcases hcomp : pyCompile (['X'] ++ specNormalize [' ', 'a']) with _ | r
  · rw [hcomp] at hpipe
    exact Option.noConfusion hpipe
  · rw [hcomp, Option.map_some'] at hpipe
    have hmat : MatchesAtStart r ['X', ' ', 'a'] :=
      (reMatch_isSome_iff r _).1 (Option.some.inj hpipe)
    exact Bool.noConfusion (hiff.2 ⟨r, hcomp, hmat⟩)

/-- C1 corrected: for every pattern, non-empty prefix and line, the
callback compiles `prefix ++ P'` where `P'` is `P` with every interior
whitespace run replaced by one `\s+` token and leading/trailing whitespace
removed, and the matcher accepts exactly when that compiled expression
matches starting at the first character of the line. -/
theorem claim_C1_amended (p pre line : List Char) (hpre : pre ≠ []) :
    analysisd_regex_source p (some pre) = pre ++ specNormalize (pyStrip p) ∧
    ∀ b, applyCallback (make_analysisd_callback p (some pre)) line = some b →
      (b = true ↔ ∃ r, pyCompile (analysisd_regex_source p (some pre)) = some r
        ∧ MatchesAtStart r line) := by
  constructor
  · show pyFormatPre (some pre) ++ normalize_pattern p
      = pre ++ specNormalize (pyStrip p)
    rw [normalize_pattern_eq_spec_strip]
    rfl
  · intro b hb
    rw [applyCallback, make_analysisd_callback] at hb
    rcases hcomp : pyCompile (analysisd_regex_source p (some pre)) with _ | r
    · rw [hcomp, Option.map_none', Option.map_none'] at hb
      exact Option.noConfusion hb
    · rw [hcomp, Option.map_some', Option.map_some'] at hb
      have hbval : (reMatch r line).isSome = b := Option.some.inj hb
      constructor
      · intro hbt
        subst hbt
        exact ⟨r, rfl, (reMatch_isSome_iff r line).1 hbval⟩
      · rintro ⟨r', hr', hm⟩
        rcases Option.some.inj hr' with rfl
        rw [← hbval]
        exact (reMatch_isSome_iff r line).2 hm

/-- C1 amended witness at a concrete input: pattern `" a"`, prefix `"X"`,
line `"Xa"` — the compiled source is `X` followed by the collapsed stripped
pattern, and the callback's verdict coincides with anchored matching. -/
theorem claim_C1_amended_witness :
    analysisd_regex_source [' ', 'a'] (some ['X'])
      = ['X'] ++ specNormalize (pyStrip [' ', 'a']) ∧
    ∀ b, applyCallback (make_analysisd_callback [' ', 'a'] (some ['X']))
        ['X', 'a'] = some b →
      (b = true ↔ ∃ r, pyCompile (analysisd_regex_source [' ', 'a'] (some ['X']))
        = some r ∧ MatchesAtStart r ['X', 'a']) :=
  claim_C1_amended [' ', 'a'] ['X'] ['X', 'a'] (by simp)

/-- C5 as stated is false at pattern `"a"`, empty prefix, line `"a"`: the
line matches, yet the callback's value is the boolean `True`
(`regex.match(line) is not None`), not a match object. -/
theorem claim_C5_counterexample :
    ¬ (∀ (p : List Char) (pfx : Option (List Char)) (line : List Char) (r : RE),
        pyCompile (analysisd_regex_source p pfx) = some r →
        (MatchesAtStart r line →
          ∃ mo, analysisd_callback_value p pfx line = some (PyVal.vMatch mo)) ∧
        (¬ MatchesAtStart r line →
          analysisd_callback_value p pfx line = some PyVal.vNone)) := by
  intro h
  rcases hcomp : pyCompile (analysisd_regex_source ['a'] (some [])) with _ | r
  · have hs : (pyCompile (analysisd_regex_source ['a'] (some []))).isSome = true := by
      rfl
    rw [hcomp] at hs
    exact Bool.noConfusion hs
  · have hpipe : (pyCompile (analysisd_regex_source ['a'] (some []))).map
        (fun r' => (reMatch r' ['a']).isSome) = some true := by rfl
    rw [hcomp, Option.map_some'] at hpipe
    have hm : MatchesAtStart r ['a'] :=
      (reMatch_isSome_iff r _).1 (Option.some.inj hpipe)
    rcases (h ['a'] (some []) ['a'] r hcomp).1 hm with ⟨mo, hmo⟩
    have hval : analysisd_callback_value ['a'] (some []) ['a']
        = some (PyVal.vBool ((reMatch r ['a']).isSome)) := by
      rw [analysisd_callback_value, hcomp, Option.map_some']
    rw [hval] at hmo
    exact PyVal.noConfusion (Option.some.inj hmo)

/-- C5 corrected: the value produced by the callback's body is always a
boolean — `True` exactly when the compiled expression matches at the start
of the line — and never a match object or `None`, so captured groups are
not exposed by `make_analysisd_callback`. -/
theorem claim_C5_amended (p : List Char) (pfx : Option (List Char))
    (line : List Char) (r : RE)
    (h : pyCompile (analysisd_regex_source p pfx) = some r) :
    (analysisd_callback_value p pfx line = some (PyVal.vBool true)
      ↔ MatchesAtStart r line) ∧
    (∀ mo, analysisd_callback_value p pfx line ≠ some (PyVal.vMatch mo)) ∧
    analysisd_callback_value p pfx line ≠ some PyVal.vNone := by
  have hval : analysisd_callback_value p pfx line
      = some (PyVal.vBool ((reMatch r line).isSome)) := by
    rw [analysisd_callback_value, h, Option.map_some']
  refine ⟨?_, ?_, ?_⟩
  · rw [hval]
    constructor
    · intro hb
      have hb2 : (reMatch r line).isSome = true := by
        have := Option.some.inj hb
        simpa using this
      exact (reMatch_isSome_iff r line).1 hb2
    · intro hm
      rw [(reMatch_isSome_iff r line).2 hm]
  · intro mo hmo
    rw [hval] at hmo
    exact PyVal.noConfusion (Option.some.inj hmo)
  · intro hmo
    rw [hval] at hmo
    exact PyVal.noConfusion (Option.some.inj hmo)

/-- C5 amended witness at a concrete input: pattern `"a"`, empty prefix,
line `"a"`. -/
theorem claim_C5_amended_witness :
    ∃ r, pyCompile (analysisd_regex_source ['a'] (some [])) = some r ∧
      ((analysisd_callback_value ['a'] (some []) ['a']
        = some (PyVal.vBool true)) ↔ MatchesAtStart r ['a']) :=
  ⟨_, rfl, (claim_C5_amended ['a'] (some []) ['a'] _ rfl).1⟩

/-- C6 as stated is false for a `None` prefix: at pattern `"abc"`,
`'{}{}'.format(None, pattern)` prepends the literal text `None`, so the
compiled expression is `Noneabc`, not the bare normalized pattern. -/
theorem claim_C6_counterexample :
    ¬ (∀ (p line : List Char) (pfx : Option (List Char)),
        (pfx = some [] ∨ pfx = none) →
        analysisd_regex_source p pfx = normalize_pattern p ∧
        ∀ b, applyCallback (make_analysisd_callback p pfx) line = some b →
          (b = true ↔ ∃ r, pyCompile (normalize_pattern p) = some r
            ∧ MatchesAtStart r line)) := by
  intro h
  have := (h ['a', 'b', 'c'] ['a', 'b', 'c'] none (Or.inr rfl)).1
  exact absurd this (by decide)

/-- C6 corrected: with an empty prefix the compiled expression is exactly
the normalized pattern and the matcher accepts a line exactly when the
pattern alone matches at its first character; a Python `None` prefix makes
`make_analysisd_callback` prepend the literal text `None`, while the
spec-modelled `monitoring.make_callback` applies no anchoring for `None`. -/
theorem claim_C6_amended (p line : List Char) :
    analysisd_regex_source p (some []) = normalize_pattern p ∧
    (∀ b, applyCallback (make_analysisd_callback p (some [])) line = some b →
      (b = true ↔ ∃ r, pyCompile (normalize_pattern p) = some r
        ∧ MatchesAtStart r line)) ∧
    analysisd_regex_source p none
      = ('N' :: 'o' :: 'n' :: 'e' :: []) ++ normalize_pattern p ∧
    make_callback p none
      = (pyCompile (specNormalize p)).map
          (fun r => fun line' => (reMatch r line').isSome) := by
  refine ⟨rfl, ?_, rfl, rfl⟩
  intro b hb
  rw [applyCallback, make_analysisd_callback] at hb
  have hsrc : analysisd_regex_source p (some []) = normalize_pattern p := rfl
  rw [hsrc] at hb
  rcases hcomp : pyCompile (normalize_pattern p) with _ | r
  · rw [hcomp, Option.map_none', Option.map_none'] at hb
    exact Option.noConfusion hb
  · rw [hcomp, Option.map_some', Option.map_some'] at hb
    have hbval : (reMatch r line).isSome = b := Option.some.inj hb
    constructor
    · intro hbt
      subst hbt
      exact ⟨r, rfl, (reMatch_isSome_iff r line).1 hbval⟩
    · rintro ⟨r', hr', hm⟩
      rcases Option.some.inj hr' with rfl
      rw [← hbval]
      exact (reMatch_isSome_iff r line).2 hm

end WazuhQA
